import Mathlib

/-!
Verification of the writebuf-core crate: a fixed-capacity byte buffer
`WriteBuf<N>` backed by a heapless `Vec<u8, N>`, with capacity-checked
text appends (`write_str`), strict UTF-8 read-back (`to_str`) and a
byte-wise lossy ASCII conversion (`into_ascii_lossy`).

Bytes are modelled as `Nat` values (real code uses `u8`; where the code
truncates with `as u8` the model takes `% 256` explicitly).  The heapless
containers are modelled by lists of bytes plus the capacity argument `N`;
fallible heapless operations return `Except Unit` exactly where the Rust
operations return `Result<(), ()>`.
-/

namespace WritebufCore

/-! ### heapless `Vec<u8, N>` primitives used by the crate -/

/-- heapless `Vec::extend_from_slice`: fails (buffer untouched) when
`self.len + other.len() > self.capacity()`, otherwise appends all bytes. -/
def vecExtendFromSlice (N : Nat) (v other : List Nat) : Except Unit (List Nat) :=
  if v.length + other.length > N then .error () else .ok (v ++ other)

/-- heapless `Vec::push`: appends one byte when `self.len < self.capacity()`,
otherwise fails leaving the vector untouched. -/
def vecPush (N : Nat) (v : List Nat) (b : Nat) : Except Unit (List Nat) :=
  if v.length < N then .ok (v ++ [b]) else .error ()

/-- heapless `Vec::resize_default` (`resize(new_len, 0u8)` for byte vectors):
fails when `new_len` exceeds the capacity; pads with zero bytes when growing,
truncates when shrinking. -/
def vecResizeDefault (N : Nat) (v : List Nat) (newLen : Nat) : Except Unit (List Nat) :=
  if newLen > N then .error ()
  else if newLen > v.length then .ok (v ++ List.replicate (newLen - v.length) 0)
  else .ok (v.take newLen)

/-- heapless `Vec::truncate`: keeps the first `n` elements (no-op when
`n` is at least the length); never fails. -/
def vecTruncate (v : List Nat) (n : Nat) : List Nat :=
  v.take n

/-! ### UTF-8 validation (`core::str::from_utf8`)

The validator below accepts exactly the well-formed UTF-8 byte sequences:
ASCII bytes stand alone; lead bytes `0xC2..=0xDF`, `0xE0..=0xEF`,
`0xF0..=0xF4` are followed by 1, 2, 3 continuation bytes with the
restricted ranges that exclude overlong forms and surrogates, as in
`core::str::run_utf8_validation`. -/

/-- Is `b` a UTF-8 continuation byte (`0x80..=0xBF`)? -/
def isCont (b : Nat) : Bool :=
  0x80 ≤ b ∧ b ≤ 0xBF

/-- Strict UTF-8 validity of a byte sequence, as checked by
`core::str::from_utf8`. -/
def utf8Valid : List Nat → Bool
  | [] => true
  | b :: l =>
    if b < 0x80 then utf8Valid l
    else if 0xC2 ≤ b ∧ b ≤ 0xDF then
      match l with
      | b1 :: l1 => isCont b1 && utf8Valid l1
      | [] => false
    else if 0xE0 ≤ b ∧ b ≤ 0xEF then
      match l with
      | b1 :: b2 :: l2 =>
        (if b = 0xE0 then decide (0xA0 ≤ b1 ∧ b1 ≤ 0xBF)
         else if b = 0xED then decide (0x80 ≤ b1 ∧ b1 ≤ 0x9F)
         else isCont b1) && isCont b2 && utf8Valid l2
      | _ => false
    else if 0xF0 ≤ b ∧ b ≤ 0xF4 then
      match l with
      | b1 :: b2 :: b3 :: l3 =>
        (if b = 0xF0 then decide (0x90 ≤ b1 ∧ b1 ≤ 0xBF)
         else if b = 0xF4 then decide (0x80 ≤ b1 ∧ b1 ≤ 0x8F)
         else isCont b1) && isCont b2 && isCont b3 && utf8Valid l3
      | _ => false
    else false

/-! ### heapless `String<N>` -/

/-- heapless `String<N>`: a byte vector of capacity `N` holding UTF-8 data. -/
structure HString (N : Nat) where
  bytes : List Nat
deriving Repr, DecidableEq

/-- Rust `char::len_utf8` on the character's code point. -/
def lenUtf8 (c : Char) : Nat :=
  if c.toNat < 0x80 then 1
  else if c.toNat < 0x800 then 2
  else if c.toNat < 0x10000 then 3
  else 4

/-- UTF-8 encoding of a character (`char::encode_utf8`). -/
def encodeUtf8 (c : Char) : List Nat :=
  let n := c.toNat
  if n < 0x80 then [n]
  else if n < 0x800 then [0xC0 + n / 0x40, 0x80 + n % 0x40]
  else if n < 0x10000 then
    [0xE0 + n / 0x1000, 0x80 + n / 0x40 % 0x40, 0x80 + n % 0x40]
  else
    [0xF0 + n / 0x40000, 0x80 + n / 0x1000 % 0x40, 0x80 + n / 0x40 % 0x40,
     0x80 + n % 0x40]

/-- heapless `String::push`: a 1-byte character goes through `Vec::push`
of `c as u8`; longer characters go through `Vec::extend_from_slice` of
their UTF-8 encoding.  Fails (string untouched) when the bytes do not fit. -/
def hstringPush (N : Nat) (s : List Nat) (c : Char) : Except Unit (List Nat) :=
  if lenUtf8 c = 1 then vecPush N s (c.toNat % 256)
  else vecExtendFromSlice N s (encodeUtf8 c)

/-! ### WriteBuf -/

/-- The crate's buffer: `struct WriteBuf<const N: usize> { buffer: Vec<u8, N> }`. -/
structure WriteBuf (N : Nat) where
  buffer : List Nat
deriving Repr, DecidableEq

/-- `WriteBuf::new` / `Default`: empty buffer. -/
def WriteBuf.new (N : Nat) : WriteBuf N := ⟨[]⟩

/-- `impl<T: AsRef<[u8]>> From<T> for WriteBuf<N>`: copies the first
`min(len(data), N)` bytes into a fresh buffer, discarding the
`extend_from_slice` result with `.ok()`. -/
def WriteBuf.fromBytes (N : Nat) (data : List Nat) : WriteBuf N :=
  let buf := WriteBuf.new N
  match vecExtendFromSlice N buf.buffer (data.take (min data.length N)) with
  | .ok v => ⟨v⟩
  | .error _ => buf

/-- `WriteBuf::to_str`: strict UTF-8 decode of the current bytes.  On
success the returned `&str` views exactly the buffer's bytes, so the model
returns the byte list itself. -/
def WriteBuf.to_str {N : Nat} (b : WriteBuf N) : Except Unit (List Nat) :=
  if utf8Valid b.buffer then .ok b.buffer else .error ()

/-- A call to `to_str` through the `&self` borrow: the result paired with
the buffer state after the call (borrowing, hence unchanged). -/
def WriteBuf.to_str_call {N : Nat} (b : WriteBuf N) :
    Except Unit (List Nat) × WriteBuf N :=
  (b.to_str, b)

/-- Both `fmt::Write::write_str` and `uWrite::write_str` delegate to
heapless `Vec`'s `write_str`, which is `extend_from_slice` on the
fragment's bytes: all-or-nothing append. -/
def WriteBuf.write_str {N : Nat} (b : WriteBuf N) (s : List Nat) :
    Except Unit Unit × WriteBuf N :=
  match vecExtendFromSlice N b.buffer s with
  | .ok v => (.ok (), ⟨v⟩)
  | .error e => (.error e, b)

/-- One iteration of `into_ascii_lossy`'s loop body: push `'~'` for a byte
at or above `0x80`, otherwise the byte's own character; the push result is
discarded with `.ok()`, so a failed push leaves the string as it was. -/
def lossyStep (N : Nat) (s : List Nat) (c : Nat) : List Nat :=
  if 0x80 ≤ c then
    match hstringPush N s '~' with
    | .ok v => v
    | .error _ => s
  else
    match hstringPush N s (Char.ofNat c) with
    | .ok v => v
    | .error _ => s

/-- `WriteBuf::into_ascii_lossy`: consume the buffer, building a
`String<N>` byte-by-byte via `lossyStep`. -/
def WriteBuf.into_ascii_lossy {N : Nat} (b : WriteBuf N) : HString N :=
  ⟨b.buffer.foldl (lossyStep N) []⟩

/-- Instrumented run of `into_ascii_lossy`'s loop: alongside the string
under construction, record whether any internal push ever failed (the
branch discarded by `.ok()` in the source). -/
def lossySteps (N : Nat) (bytes : List Nat) : List Nat × Bool :=
  bytes.foldl
    (fun p c =>
      let ch : Char := if 0x80 ≤ c then '~' else Char.ofNat c
      match hstringPush N p.1 ch with
      | .ok v => (v, p.2)
      | .error _ => (p.1, true))
    ([], false)

/-! ### Public mutation steps for the capacity invariant

`Deref`/`DerefMut` expose the underlying heapless `Vec<u8, N>`, so a
client may also mutate through the `Vec` API (the crate's own tests use
`resize_default` and indexed assignment).  Each constructor below is one
public mutating operation; fallible results are discarded as a caller
ignoring them (`.ok()`), which leaves the buffer untouched. -/
inductive VecOp where
  | writeStrOp (s : List Nat)
  | pushOp (b : Nat)
  | extendOp (s : List Nat)
  | resizeDefaultOp (n : Nat)
  | truncateOp (n : Nat)
  | clearOp
  | setByteOp (i : Nat) (v : Nat)
deriving Repr, DecidableEq

/-- Apply one public mutating operation to the buffer.  Indexed
assignment `buf[i] = v` requires `i` in bounds in Rust (it panics
otherwise); `List.set` leaves the list unchanged out of bounds, which is
the only case the invariant argument needs. -/
def applyOp {N : Nat} (b : WriteBuf N) : VecOp → WriteBuf N
  | .writeStrOp s => (b.write_str s).2
  | .pushOp x =>
    match vecPush N b.buffer x with
    | .ok v => ⟨v⟩
    | .error _ => b
  | .extendOp s =>
    match vecExtendFromSlice N b.buffer s with
    | .ok v => ⟨v⟩
    | .error _ => b
  | .resizeDefaultOp n =>
    match vecResizeDefault N b.buffer n with
    | .ok v => ⟨v⟩
    | .error _ => b
  | .truncateOp n => ⟨vecTruncate b.buffer n⟩
  | .clearOp => ⟨[]⟩
  | .setByteOp i v => ⟨b.buffer.set i v⟩

/-- Run a sequence of public mutating operations. -/
def runOps {N : Nat} (b : WriteBuf N) (ops : List VecOp) : WriteBuf N :=
  ops.foldl applyOp b

/-! ### Helper lemmas -/

theorem vecExtendFromSlice_ok (N : Nat) (v o : List Nat)
    (h : v.length + o.length ≤ N) :
    vecExtendFromSlice N v o = .ok (v ++ o) := by
  unfold vecExtendFromSlice
  rw [if_neg (by omega)]

theorem vecExtendFromSlice_err (N : Nat) (v o : List Nat)
    (h : N < v.length + o.length) :
    vecExtendFromSlice N v o = .error () := by
  unfold vecExtendFromSlice
  rw [if_pos (by omega)]

theorem write_str_ok {N : Nat} (b : WriteBuf N) (s : List Nat)
    (h : b.buffer.length + s.length ≤ N) :
    b.write_str s = (.ok (), ⟨b.buffer ++ s⟩) := by
  unfold WriteBuf.write_str
  rw [vecExtendFromSlice_ok N b.buffer s h]

theorem write_str_err {N : Nat} (b : WriteBuf N) (s : List Nat)
    (h : N < b.buffer.length + s.length) :
    b.write_str s = (.error (), b) := by
  unfold WriteBuf.write_str
  rw [vecExtendFromSlice_err N b.buffer s h]

theorem fromBytes_buffer (N : Nat) (S : List Nat) :
    (WriteBuf.fromBytes N S).buffer = S.take (min S.length N) := by
  have h : ([] : List Nat).length + (S.take (min S.length N)).length ≤ N := by
    simp [List.length_take]
  simp [WriteBuf.fromBytes, WriteBuf.new, vecExtendFromSlice_ok _ _ _ h]

theorem toNat_ofNat_ascii (c : Nat) (h : c < 0x80) : (Char.ofNat c).toNat = c := by
  have hv : Nat.isValidChar c := Or.inl (by omega)
  simp [Char.ofNat, hv, Char.toNat, Char.ofNatAux, UInt32.toNat, BitVec.toNat_ofNatLt]

theorem lenUtf8_ofNat_ascii (c : Nat) (h : c < 0x80) : lenUtf8 (Char.ofNat c) = 1 := by
  rw [lenUtf8, toNat_ofNat_ascii c h]
  rw [if_pos h]

/-- The byte any single loop iteration of `into_ascii_lossy` appends. -/
def lossyByte (c : Nat) : Nat :=
  if 0x80 ≤ c then 0x7E else c

theorem hstringPush_lossy (N : Nat) (s : List Nat) (c : Nat)
    (h : s.length < N) :
    hstringPush N s (if 0x80 ≤ c then '~' else Char.ofNat c)
      = .ok (s ++ [lossyByte c]) := by
  by_cases hc : 0x80 ≤ c
  · rw [if_pos hc]
    have h1 : lenUtf8 '~' = 1 := by decide
    simp [hstringPush, h1, vecPush, h, lossyByte, hc]
  · rw [if_neg hc]
    have h1 : lenUtf8 (Char.ofNat c) = 1 := lenUtf8_ofNat_ascii c (by omega)
    simp [hstringPush, h1, vecPush, h, lossyByte, hc,
      toNat_ofNat_ascii c (by omega), Nat.mod_eq_of_lt (show c < 256 by omega)]

theorem lossyStep_eq (N : Nat) (s : List Nat) (c : Nat) (h : s.length < N) :
    lossyStep N s c = s ++ [lossyByte c] := by
  have hp := hstringPush_lossy N s c h
  unfold lossyStep
  by_cases hc : 0x80 ≤ c
  · rw [if_pos hc] at hp ⊢
    rw [hp]
  · rw [if_neg hc] at hp ⊢
    rw [hp]

theorem lossy_foldl (N : Nat) (bytes : List Nat) :
    ∀ acc : List Nat, acc.length + bytes.length ≤ N →
      bytes.foldl (lossyStep N) acc = acc ++ bytes.map lossyByte := by
  induction bytes with
  | nil => intro acc _; simp
  | cons c rest ih =>
    intro acc h
    have hlt : acc.length < N := by
      simp [List.length_cons] at h
      omega
    rw [List.foldl_cons, lossyStep_eq N acc c hlt,
      ih (acc ++ [lossyByte c]) (by simp [List.length_cons] at h ⊢; omega)]
    simp

theorem into_ascii_lossy_eq {N : Nat} (b : WriteBuf N)
    (h : b.buffer.length ≤ N) :
    (b.into_ascii_lossy).bytes = b.buffer.map lossyByte := by
  unfold WriteBuf.into_ascii_lossy
  exact lossy_foldl N b.buffer [] (by simpa using h)

theorem lossySteps_foldl (N : Nat) (bytes : List Nat) :
    ∀ (acc : List Nat) (fl : Bool), acc.length + bytes.length ≤ N →
      bytes.foldl
        (fun p c =>
          let ch : Char := if 0x80 ≤ c then '~' else Char.ofNat c
          match hstringPush N p.1 ch with
          | .ok v => (v, p.2)
          | .error _ => (p.1, true))
        (acc, fl) = (acc ++ bytes.map lossyByte, fl) := by
  induction bytes with
  | nil => intro acc fl _; simp
  | cons c rest ih =>
    intro acc fl h
    have hlt : acc.length < N := by
      simp [List.length_cons] at h
      omega
    rw [List.foldl_cons]
    simp only [hstringPush_lossy N acc c hlt]
    rw [ih (acc ++ [lossyByte c]) fl (by simp [List.length_cons] at h ⊢; omega)]
    simp

theorem applyOp_length {N : Nat} (b : WriteBuf N) (op : VecOp)
    (h : b.buffer.length ≤ N) : (applyOp b op).buffer.length ≤ N := by
  cases op with
  | writeStrOp s =>
    by_cases hc : b.buffer.length + s.length ≤ N
    · simp [applyOp, write_str_ok b s hc]
      exact hc
    · rw [applyOp, write_str_err b s (by omega)]
      exact h
  | pushOp x =>
    by_cases hc : b.buffer.length < N
    · simp [applyOp, vecPush, hc]
      omega
    · simp [applyOp, vecPush, hc]
      exact h
  | extendOp s =>
    by_cases hc : b.buffer.length + s.length ≤ N
    · simp [applyOp, vecExtendFromSlice_ok N b.buffer s hc]
      omega
    · simp [applyOp, vecExtendFromSlice_err N b.buffer s (by omega)]
      exact h
  | resizeDefaultOp n =>
    by_cases h1 : n > N
    · simp [applyOp, vecResizeDefault, h1]
      exact h
    · by_cases h2 : n > b.buffer.length
      · simp [applyOp, vecResizeDefault, h1, h2]
        omega
      · simp [applyOp, vecResizeDefault, h1, h2, List.length_take]
        omega
  | truncateOp n =>
    simp [applyOp, vecTruncate, List.length_take]
    omega
  | clearOp => simp [applyOp]
  | setByteOp i v => simpa [applyOp]

theorem runOps_length {N : Nat} (b : WriteBuf N) (ops : List VecOp)
    (h : b.buffer.length ≤ N) : (runOps b ops).buffer.length ≤ N := by
  induction ops generalizing b with
  | nil => simpa [runOps]
  | cons op rest ih =>
    have : runOps b (op :: rest) = runOps (applyOp b op) rest := by
      simp [runOps]
    rw [this]
    exact ih (applyOp b op) (applyOp_length b op h)

/-! ### Claims -/

/-- C1: appending a fragment F to a buffer of length L and capacity N via
`write_str` succeeds with the bytes of F appended in order and new length
`L + len(F)` when `L + len(F) ≤ N`; when `L + len(F) > N` it returns the
overflow error and leaves the buffer byte-for-byte unchanged (no partial
append). -/
theorem write_str_all_or_nothing {N : Nat} (b : WriteBuf N) (F : List Nat) :
    (b.buffer.length + F.length ≤ N →
      (b.write_str F).1 = .ok () ∧
      (b.write_str F).2.buffer = b.buffer ++ F ∧
      (b.write_str F).2.buffer.length = b.buffer.length + F.length) ∧
    (N < b.buffer.length + F.length →
      (b.write_str F).1 = .error () ∧ (b.write_str F).2 = b) := by
  constructor
  · intro hfit
    rw [write_str_ok b F hfit]
    exact ⟨rfl, rfl, by simp⟩
  · intro hov
    rw [write_str_err b F hov]
    exact ⟨rfl, rfl⟩

/-- Witness for C1 at a fitting append (capacity 3, length 2, one byte)
and an overflowing one (capacity 2, length 2, one byte). -/
theorem write_str_all_or_nothing_witness :
    (((⟨[1, 2]⟩ : WriteBuf 3).write_str [3]).1 = .ok () ∧
     ((⟨[1, 2]⟩ : WriteBuf 3).write_str [3]).2.buffer = [1, 2] ++ [3] ∧
     ((⟨[1, 2]⟩ : WriteBuf 3).write_str [3]).2.buffer.length = 2 + 1) ∧
    (((⟨[4, 5]⟩ : WriteBuf 2).write_str [6]).1 = .error () ∧
     ((⟨[4, 5]⟩ : WriteBuf 2).write_str [6]).2 = ⟨[4, 5]⟩) :=
  ⟨(write_str_all_or_nothing (⟨[1, 2]⟩ : WriteBuf 3) [3]).1 (by decide),
   (write_str_all_or_nothing (⟨[4, 5]⟩ : WriteBuf 2) [6]).2 (by decide)⟩

/-- C2: `into_ascii_lossy` is total over every buffer content: the output
has one character per input byte (all outputs are single-byte characters,
so lengths agree byte-for-byte), the i-th output being the i-th byte's own
ASCII character below `0x80` and the character `'~'` at or above `0x80`. -/
theorem into_ascii_lossy_total {N : Nat} (b : WriteBuf N)
    (h : b.buffer.length ≤ N) :
    (b.into_ascii_lossy).bytes.length = b.buffer.length ∧
    ∀ i, i < b.buffer.length →
      (b.into_ascii_lossy).bytes.getD i 0
        = if 0x80 ≤ b.buffer.getD i 0 then Char.toNat '~'
          else b.buffer.getD i 0 := by
  have he := into_ascii_lossy_eq b h
  refine ⟨by rw [he, List.length_map], ?_⟩
  intro i hi
  have hlen : i < (b.buffer.map lossyByte).length := by simpa using hi
  rw [he, List.getD_eq_getElem _ 0 hlen, List.getElem_map,
    List.getD_eq_getElem _ 0 hi]
  unfold lossyByte
  split <;> rfl

/-- Witness for C2 on the two-byte buffer `[65, 200]` of capacity 2,
looking at index 1 where the byte `200 ≥ 0x80` becomes `'~'`. -/
theorem into_ascii_lossy_total_witness :
    (1 < (⟨[65, 200]⟩ : WriteBuf 2).buffer.length) ∧
    ((⟨[65, 200]⟩ : WriteBuf 2).into_ascii_lossy).bytes.getD 1 0
      = (if 0x80 ≤ (⟨[65, 200]⟩ : WriteBuf 2).buffer.getD 1 0 then Char.toNat '~'
         else (⟨[65, 200]⟩ : WriteBuf 2).buffer.getD 1 0) :=
  ⟨by decide,
   (into_ascii_lossy_total (⟨[65, 200]⟩ : WriteBuf 2) (by decide)).2 1 (by decide)⟩

/-- C3: round-trip — for every capacity N and valid-UTF-8 byte sequence S
with `len(S) ≤ N`, building a buffer from S and reading it back with
`to_str` returns `Ok` of exactly S. -/
theorem from_to_str_roundtrip (N : Nat) (S : List Nat)
    (h1 : S.length ≤ N) (h2 : utf8Valid S = true) :
    (WriteBuf.fromBytes N S).to_str = .ok S := by
  have hb : (WriteBuf.fromBytes N S).buffer = S := by
    rw [fromBytes_buffer]
    have hm : min S.length N = S.length := by omega
    rw [hm, List.take_length]
  rw [WriteBuf.to_str, hb, h2]
  simp

/-- Witness for C3 with the ASCII bytes of a two-character string in a
capacity-2 buffer. -/
theorem from_to_str_roundtrip_witness :
    ([104, 105].length ≤ 2 ∧ utf8Valid [104, 105] = true) ∧
    (WriteBuf.fromBytes 2 [104, 105]).to_str = .ok [104, 105] :=
  ⟨⟨by decide, by decide⟩, from_to_str_roundtrip 2 [104, 105] (by decide) (by decide)⟩

/-- C4: construction copies exactly the first `min(len(S), N)` bytes of the
source; in particular when `len(S) > N` the buffer holds exactly the first
N bytes, with no error signalled (the constructor is total by its type). -/
theorem fromBytes_truncates (N : Nat) (S : List Nat) :
    (WriteBuf.fromBytes N S).buffer = S.take (min S.length N) ∧
    (N < S.length → (WriteBuf.fromBytes N S).buffer = S.take N) := by
  refine ⟨fromBytes_buffer N S, ?_⟩
  intro h
  rw [fromBytes_buffer]
  congr 1
  omega

/-- Witness for C4 with a three-byte source and capacity 2. -/
theorem fromBytes_truncates_witness :
    (2 < [7, 8, 9].length) ∧
    (WriteBuf.fromBytes 2 [7, 8, 9]).buffer = [7, 8, 9].take 2 :=
  ⟨by decide, (fromBytes_truncates 2 [7, 8, 9]).2 (by decide)⟩

/-- C5: the capacity invariant — starting from `new` or from any source,
after any sequence of public operations (checked appends and the mutators
reachable through the exposed underlying vector) the length never exceeds
N.  The read-only operations `to_str` and `into_ascii_lossy` take the
buffer by borrow resp. by move and change no state. -/
theorem capacity_invariant (N : Nat) (S : List Nat) (ops : List VecOp) :
    (runOps (WriteBuf.new N) ops).buffer.length ≤ N ∧
    (runOps (WriteBuf.fromBytes N S) ops).buffer.length ≤ N := by
  constructor
  · exact runOps_length _ ops (by simp [WriteBuf.new])
  · refine runOps_length _ ops ?_
    rw [fromBytes_buffer, List.length_take]
    omega

/-- C6: every internal push of `into_ascii_lossy` succeeds — the error
branch discarded by `.ok()` in the source is unreachable for every buffer
within capacity, and the instrumented loop builds exactly the returned
string. -/
theorem lossy_push_never_fails {N : Nat} (b : WriteBuf N)
    (h : b.buffer.length ≤ N) :
    (lossySteps N b.buffer).2 = false ∧
    (b.into_ascii_lossy).bytes = (lossySteps N b.buffer).1 := by
  have hs := lossySteps_foldl N b.buffer [] false (by simpa using h)
  constructor
  · unfold lossySteps
    rw [hs]
  · unfold lossySteps
    rw [hs, into_ascii_lossy_eq b h]
    simp

/-- Witness for C6 on a full capacity-2 buffer containing one byte at or
above `0x80`. -/
theorem lossy_push_never_fails_witness :
    ((⟨[65, 200]⟩ : WriteBuf 2).buffer.length ≤ 2) ∧
    ((lossySteps 2 (⟨[65, 200]⟩ : WriteBuf 2).buffer).2 = false ∧
     ((⟨[65, 200]⟩ : WriteBuf 2).into_ascii_lossy).bytes
       = (lossySteps 2 (⟨[65, 200]⟩ : WriteBuf 2).buffer).1) :=
  ⟨by decide, lossy_push_never_fails (⟨[65, 200]⟩ : WriteBuf 2) (by decide)⟩

/-- C7: sequential appends are independently checked — with
`len(F1) + len(F2) ≤ N < len(F1) + len(F2) + len(F3)`, appending F1, F2,
F3 in order to an empty buffer succeeds twice, fails on F3, and the final
content is exactly `F1 ++ F2`. -/
theorem sequential_appends (N : Nat) (F1 F2 F3 : List Nat)
    (h12 : F1.length + F2.length ≤ N)
    (h123 : N < F1.length + F2.length + F3.length) :
    ((WriteBuf.new N).write_str F1).1 = .ok () ∧
    (((WriteBuf.new N).write_str F1).2.write_str F2).1 = .ok () ∧
    ((((WriteBuf.new N).write_str F1).2.write_str F2).2.write_str F3).1 = .error () ∧
    ((((WriteBuf.new N).write_str F1).2.write_str F2).2.write_str F3).2.buffer
      = F1 ++ F2 := by
  have e1 : (WriteBuf.new N).write_str F1 = (.ok (), ⟨F1⟩) :=
    write_str_ok _ F1 (by simp only [WriteBuf.new, List.length_nil]; omega)
  have e2 : (⟨F1⟩ : WriteBuf N).write_str F2 = (.ok (), ⟨F1 ++ F2⟩) :=
    write_str_ok _ F2 h12
  have e3 : (⟨F1 ++ F2⟩ : WriteBuf N).write_str F3
      = (.error (), ⟨F1 ++ F2⟩) :=
    write_str_err _ F3
      (show N < (F1 ++ F2).length + F3.length by
        simp only [List.length_append]; omega)
  simp [e1, e2, e3]

/-- Witness for C7 with capacity 4 and fragments of sizes 2, 2, 1. -/
theorem sequential_appends_witness :
    ([1, 2].length + [3, 4].length ≤ 4 ∧
     4 < [1, 2].length + [3, 4].length + [5].length) ∧
    (((WriteBuf.new 4).write_str [1, 2]).1 = .ok () ∧
     (((WriteBuf.new 4).write_str [1, 2]).2.write_str [3, 4]).1 = .ok () ∧
     ((((WriteBuf.new 4).write_str [1, 2]).2.write_str [3, 4]).2.write_str [5]).1
       = .error () ∧
     ((((WriteBuf.new 4).write_str [1, 2]).2.write_str [3, 4]).2.write_str [5]).2.buffer
       = [1, 2] ++ [3, 4]) :=
  ⟨⟨by decide, by decide⟩,
   sequential_appends 4 [1, 2] [3, 4] [5] (by decide) (by decide)⟩

/-- C8: reading is idempotent and non-mutating — two consecutive `to_str`
calls through the borrowing interface return the same result and leave the
buffer identical before and after. -/
theorem to_str_idempotent {N : Nat} (b : WriteBuf N) :
    (b.to_str_call).2 = b ∧
    ((b.to_str_call).2.to_str_call).1 = (b.to_str_call).1 ∧
    ((b.to_str_call).2.to_str_call).2 = b :=
  ⟨rfl, rfl, rfl⟩

/-- C9: concrete scenario — capacity 10, construct from the bytes of
the nine digits, pad to length 10 with `resize_default`, set the byte at
index 9 to `0x80`, and `into_ascii_lossy` yields exactly the bytes of the
digits followed by `'~'` (`0x7E`). -/
theorem lossy_concrete_scenario :
    ((applyOp (applyOp (WriteBuf.fromBytes 10
        [0x31, 0x32, 0x33, 0x34, 0x35, 0x36, 0x37, 0x38, 0x39])
        (.resizeDefaultOp 10)) (.setByteOp 9 0x80)).into_ascii_lossy).bytes
      = [0x31, 0x32, 0x33, 0x34, 0x35, 0x36, 0x37, 0x38, 0x39, 0x7E] := by
  decide

/-- C10: appending the empty fragment always succeeds, including on a
completely full buffer, and changes nothing. -/
theorem write_str_empty_ok {N : Nat} (b : WriteBuf N)
    (h : b.buffer.length ≤ N) :
    (b.write_str []).1 = .ok () ∧ (b.write_str []).2 = b := by
  have e := write_str_ok b [] (by simpa using h)
  rw [e]
  exact ⟨rfl, by rw [List.append_nil]⟩

/-- Witness for C10 on a completely full capacity-3 buffer. -/
theorem write_str_empty_ok_witness :
    ((⟨[1, 2, 3]⟩ : WriteBuf 3).buffer.length ≤ 3) ∧
    (((⟨[1, 2, 3]⟩ : WriteBuf 3).write_str []).1 = .ok () ∧
     ((⟨[1, 2, 3]⟩ : WriteBuf 3).write_str []).2 = ⟨[1, 2, 3]⟩) :=
  ⟨by decide, write_str_empty_ok (⟨[1, 2, 3]⟩ : WriteBuf 3) (by decide)⟩

end WritebufCore
